import Mathlib

/-!
Shallow embedding of `eth/vm/code_stream.py` (class `CodeStream`): a cursor
over an immutable byte buffer plus a memoized recursive opcode-validity
classifier, together with proofs of the specified properties.

Bytes are modelled as `Nat` (each < 256 in practice, but nothing here needs
that bound); Python `int` positions are `Int`; the Python `set`s
`invalid_positions` / `valid_positions` are `List Int` with set-like
insertion (`List.insert` is a no-op on an element already present, like
`set.add`); a raised exception is `none` / a `false` completion flag.
-/

namespace CodeStreamModel

/-- Modelled from the spec: the opcode-range constants are defined by the
encompassing instruction-set specification (`eth/vm/opcode_values`, not part
of the sources here) and treated as fixed inputs: the push family is the
contiguous range `[PUSH1, PUSH32]` (EVM values `0x60`–`0x7f`) and the
terminator is STOP (`0x00`). -/
def PUSH1 : Nat := 0x60

/-- Modelled from the spec: `PUSH2 = PUSH1 + 1` (width 2). -/
def PUSH2 : Nat := 0x61

/-- Modelled from the spec: top of the push range, width 32. -/
def PUSH32 : Nat := 0x7f

/-- Modelled from the spec: the terminator opcode returned past the end. -/
def STOP : Nat := 0x00

/-- State of a `CodeStream`: the immutable buffer (`_raw_code_bytes`, whose
length is `_length_cache`), the `io.BytesIO` cursor position, and the two
memo sets. -/
structure CodeStream where
  code : List Nat
  pos : Nat
  invalid_positions : List Int
  valid_positions : List Int
deriving DecidableEq

/-- `__init__`: wrap a byte buffer, cursor at 0, empty memo sets. -/
def CodeStream.init (code_bytes : List Nat) : CodeStream :=
  { code := code_bytes, pos := 0, invalid_positions := [], valid_positions := [] }

/-- `read(size)`: return up to `size` bytes from the cursor and advance the
cursor by the number of bytes actually returned (`io.BytesIO.read`). -/
def CodeStream.read (s : CodeStream) (size : Nat) : List Nat × CodeStream :=
  let bytes := (s.code.drop s.pos).take size
  (bytes, { s with pos := s.pos + bytes.length })

/-- `_next`: read one byte; an empty read (cursor at or past the end) yields
the STOP terminator instead of signalling end-of-sequence. -/
def CodeStream._next (s : CodeStream) : Nat × CodeStream :=
  match s.read 1 with
  | ([], s1) => (STOP, s1)
  | (b :: _, s1) => (b, s1)

/-- `pc` setter: `self.stream.seek(min(value, len(self)))`; seeking to a
negative offset raises `ValueError` (`none`), leaving the state unchanged. -/
def CodeStream.pc_set (s : CodeStream) (value : Int) : Option CodeStream :=
  let target : Int := min value (s.code.length : Int)
  if target < 0 then none
  else some { s with pos := target.toNat }

/-- `peek`: save `pc`, take `next(self)`, restore `pc` through the setter. -/
def CodeStream.peek (s : CodeStream) : Nat × CodeStream :=
  let current_pc := s.pos
  let r := s._next
  (r.1, { r.2 with pos := min current_pc r.2.code.length })

/-- The `seek` context manager: capture the current position, move to `pc`
(this assignment precedes the `try`, so a `ValueError` from a negative
target propagates with the cursor untouched), run the body, and in the
`finally` clause restore the captured position. The body is any state
transformer; its `Bool` is `true` for normal completion and `false` for an
exception unwinding out of the `with` block. -/
def CodeStream.seek (s : CodeStream) (pc : Int)
    (body : CodeStream → CodeStream × Bool) : CodeStream × Bool :=
  let anchor_pc := s.pos
  match s.pc_set pc with
  | none => (s, false)
  | some s1 =>
    let r := body s1
    match r.1.pc_set (anchor_pc : Int) with
    | none => (r.1, false)
    | some s3 => (s3, r.2)

/-- `_potentially_disqualifying_opcode_positions`: for `bytes_back` ranging
over `range(min(32, position), 0, -1)` (i.e. from the deepest lookback down
to 1; empty when `position ≤ 0`), yield `earlier_position =
position - bytes_back` whenever the byte there is a push whose width covers
`position`, i.e. `PUSH1 + (bytes_back - 1) ≤ opcode ≤ PUSH32`. -/
def CodeStream._potentially_disqualifying_opcode_positions
    (s : CodeStream) (position : Int) : List Int :=
  let deepest_lookback : Int := min 32 position
  ((List.range deepest_lookback.toNat).reverse.map (· + 1)).filterMap
    (fun bytes_back : Nat =>
      let earlier_position := position - (bytes_back : Int)
      let opcode := s.code.getD earlier_position.toNat 0
      if (PUSH1 : Int) + ((bytes_back : Int) - 1) ≤ (opcode : Int) ∧ (opcode : Int) ≤ (PUSH32 : Int)
      then some earlier_position else none)

/-- The `for disqualifier in ...` loop inside `is_valid_opcode`, with `f`
standing for the recursive call (one stack frame deeper). On the first
disqualifier that `f` classifies valid, memoize `position` as invalid and
return `false` without examining the rest; if the candidates are exhausted,
memoize `position` as valid and return `true`. `none` propagates exhaustion
of the modelled stack depth. -/
def ivoLoop (f : Int → CodeStream → Option (Bool × CodeStream)) :
    Int → List Int → CodeStream → Option (Bool × CodeStream)
  | position, [], s =>
    some (true, { s with valid_positions := s.valid_positions.insert position })
  | position, disqualifier :: rest, s =>
    match f disqualifier s with
    | none => none
    | some (true, s1) =>
      some (false, { s1 with invalid_positions := s1.invalid_positions.insert position })
    | some (false, s1) => ivoLoop f position rest s1

/-- `is_valid_opcode`, indexed by the number of available call-stack frames:
each nested recursive Python call consumes one frame, and `none` means the
computation needs more than `fuel` nested levels. The Python source has no
such bound (its depth is limited only by the interpreter's recursion
limit); `is_valid_opcode_fuel` with sufficient fuel (see
`is_valid_opcode_fuel_isSome`) is the function the source computes. -/
def is_valid_opcode_fuel : Nat → Int → CodeStream → Option (Bool × CodeStream)
  | 0 => fun _ _ => none
  | fuel + 1 => fun position s =>
    if (s.code.length : Int) ≤ position then some (false, s)
    else if position ∈ s.invalid_positions then some (false, s)
    else if position ∈ s.valid_positions then some (true, s)
    else ivoLoop (is_valid_opcode_fuel fuel) position
      (s._potentially_disqualifying_opcode_positions position) s

/-- `is_valid_opcode` as the total function the source computes: fuel
`position.toNat + 1` always suffices (`is_valid_opcode_fuel_isSome`), so the
default branch of `getD` is never taken. Returns the boolean answer together
with the state (the memo sets may have grown). -/
def CodeStream.is_valid_opcode (s : CodeStream) (position : Int) : Bool × CodeStream :=
  (is_valid_opcode_fuel (position.toNat + 1) position s).getD (false, s)

/-- An externally triggerable operation on a `CodeStream`: a sequential
read, an iterator step, a peek, a cursor assignment (through the `pc`
setter, state unchanged if it raises), or a validity classification. -/
inductive Op where
  | readOp (size : Nat)
  | nextOp
  | peekOp
  | pcSetOp (value : Int)
  | classifyOp (position : Int)

/-- Apply one operation, keeping only the resulting state. -/
def applyOp : Op → CodeStream → CodeStream
  | .readOp n, s => (s.read n).2
  | .nextOp, s => s._next.2
  | .peekOp, s => s.peek.2
  | .pcSetOp v, s => (s.pc_set v).getD s
  | .classifyOp q, s => (s.is_valid_opcode q).2

/-- Apply a sequence of operations in order. -/
def applyOps (ops : List Op) (s : CodeStream) : CodeStream :=
  ops.foldl (fun t op => applyOp op t) s

/-- The memo sets are disjoint: no position is in both. -/
def Disj (s : CodeStream) : Prop :=
  ∀ x : Int, x ∈ s.valid_positions → x ∉ s.invalid_positions

/-- `Grows p s s1`: `s1` is reachable from `s` by a classification of
position `p`: buffer and cursor untouched, memo sets only grow, and every
newly memoized position is `≤ p`. -/
def Grows (p : Int) (s s1 : CodeStream) : Prop :=
  s1.code = s.code ∧ s1.pos = s.pos ∧
  (∀ x : Int, x ∈ s.valid_positions → x ∈ s1.valid_positions) ∧
  (∀ x : Int, x ∈ s.invalid_positions → x ∈ s1.invalid_positions) ∧
  (∀ x : Int, x ∈ s1.valid_positions → x ∈ s.valid_positions ∨ x ≤ p) ∧
  (∀ x : Int, x ∈ s1.invalid_positions → x ∈ s.invalid_positions ∨ x ≤ p)

theorem grows_refl (p : Int) (s : CodeStream) : Grows p s s :=
  ⟨rfl, rfl, fun _ h => h, fun _ h => h, fun _ h => Or.inl h, fun _ h => Or.inl h⟩

theorem grows_trans_le {a b p : Int} {s s1 s2 : CodeStream}
    (h1 : Grows a s s1) (h2 : Grows b s1 s2) (ha : a ≤ p) (hb : b ≤ p) :
    Grows p s s2 := by
  obtain ⟨c1, q1, v1, i1, nv1, ni1⟩ := h1
  obtain ⟨c2, q2, v2, i2, nv2, ni2⟩ := h2
  refine ⟨c2.trans c1, q2.trans q1, fun x hx => v2 x (v1 x hx),
    fun x hx => i2 x (i1 x hx), fun x hx => ?_, fun x hx => ?_⟩
  · rcases nv2 x hx with hx1 | hle
    · rcases nv1 x hx1 with hx0 | hle
      · exact Or.inl hx0
      · exact Or.inr (hle.trans ha)
    · exact Or.inr (hle.trans hb)
  · rcases ni2 x hx with hx1 | hle
    · rcases ni1 x hx1 with hx0 | hle
      · exact Or.inl hx0
      · exact Or.inr (hle.trans ha)
    · exact Or.inr (hle.trans hb)

/-- Every yielded disqualifier is a nonnegative position strictly before
`position` (it is `position - bytes_back` with `1 ≤ bytes_back ≤
min(32, position)`). -/
theorem mem_disqualifying {s : CodeStream} {p d : Int}
    (h : d ∈ s._potentially_disqualifying_opcode_positions p) : 0 ≤ d ∧ d < p := by
  unfold CodeStream._potentially_disqualifying_opcode_positions at h
  simp only [List.mem_filterMap, List.mem_map, List.mem_reverse, List.mem_range] at h
  obtain ⟨bb, ⟨i, hi, hbb⟩, hok⟩ := h
  split at hok
  · cases hok
    omega
  · cases hok

/-- Loop invariant: provided the recursive call only grows the memo with
positions bounded by its argument and preserves disjointness, the whole
loop does the same for `position` (and in particular never touches
`position` itself before its final memoization). -/
theorem ivoLoop_grows_disj
    (f : Int → CodeStream → Option (Bool × CodeStream)) (p : Int)
    (hf : ∀ d s b s1, f d s = some (b, s1) → Grows d s s1 ∧ (Disj s → Disj s1)) :
    ∀ (ds : List Int) (s : CodeStream) (b : Bool) (s1 : CodeStream),
      (∀ d ∈ ds, 0 ≤ d ∧ d < p) →
      p ∉ s.valid_positions → p ∉ s.invalid_positions →
      ivoLoop f p ds s = some (b, s1) →
      Grows p s s1 ∧ (Disj s → Disj s1)
  | [], s, b, s1, _, hpv, hpi, h => by
    simp only [ivoLoop, Option.some.injEq, Prod.mk.injEq] at h
    obtain ⟨rfl, rfl⟩ := h
    refine ⟨⟨rfl, rfl, fun x hx => List.mem_insert_of_mem hx, fun x hx => hx,
      fun x hx => ?_, fun x hx => Or.inl hx⟩, fun hD x hx => ?_⟩
    · rcases List.mem_insert_iff.mp hx with rfl | hx
      · exact Or.inr le_rfl
      · exact Or.inl hx
    · rcases List.mem_insert_iff.mp hx with rfl | hx
      · exact hpi
      · exact hD x hx
  | d :: rest, s, b, s1, hds, hpv, hpi, h => by
    have hd := hds d (by simp)
    rcases hfd : f d s with _ | ⟨b1, smid⟩
    · simp only [ivoLoop, hfd] at h
      cases h
    · obtain ⟨hg, hD⟩ := hf d s b1 smid hfd
      have hpv1 : p ∉ smid.valid_positions := by
        intro hx
        rcases hg.2.2.2.2.1 p hx with h1 | h1
        · exact hpv h1
        · omega
      have hpi1 : p ∉ smid.invalid_positions := by
        intro hx
        rcases hg.2.2.2.2.2 p hx with h1 | h1
        · exact hpi h1
        · omega
      cases b1
      · simp only [ivoLoop, hfd] at h
        obtain ⟨hg2, hD2⟩ :=
          ivoLoop_grows_disj f p hf rest smid b s1
            (fun x hx => hds x (List.mem_cons_of_mem d hx)) hpv1 hpi1 h
        exact ⟨grows_trans_le hg hg2 (le_of_lt hd.2) le_rfl, fun hDs => hD2 (hD hDs)⟩
      · simp only [ivoLoop, hfd, Option.some.injEq, Prod.mk.injEq] at h
        obtain ⟨rfl, rfl⟩ := h
        have hstep : Grows p smid
            { smid with invalid_positions := smid.invalid_positions.insert p } := by
          refine ⟨rfl, rfl, fun x hx => hx, fun x hx => List.mem_insert_of_mem hx,
            fun x hx => Or.inl hx, fun x hx => ?_⟩
          rcases List.mem_insert_iff.mp hx with rfl | hx
          · exact Or.inr le_rfl
          · exact Or.inl hx
        refine ⟨grows_trans_le hg hstep (le_of_lt hd.2) le_rfl, fun hDs x hx => ?_⟩
        intro hmem
        rcases List.mem_insert_iff.mp hmem with rfl | hmem
        · exact hpv1 hx
        · exact hD hDs x hx hmem

/-- A successful run of `is_valid_opcode` only grows the memo sets with
positions `≤ position`, leaves the buffer and cursor untouched, and
preserves disjointness of the memo sets. -/
theorem is_valid_opcode_fuel_grows_disj :
    ∀ (fuel : Nat) (p : Int) (s : CodeStream) (b : Bool) (s1 : CodeStream),
      is_valid_opcode_fuel fuel p s = some (b, s1) →
      Grows p s s1 ∧ (Disj s → Disj s1)
  | 0, _, _, _, _, h => by cases h
  | fuel + 1, p, s, b, s1, h => by
    simp only [is_valid_opcode_fuel] at h
    split_ifs at h with h1 h2 h3
    · simp only [Option.some.injEq, Prod.mk.injEq] at h
      obtain ⟨rfl, rfl⟩ := h
      exact ⟨grows_refl p s, fun hD => hD⟩
    · simp only [Option.some.injEq, Prod.mk.injEq] at h
      obtain ⟨rfl, rfl⟩ := h
      exact ⟨grows_refl p s, fun hD => hD⟩
    · simp only [Option.some.injEq, Prod.mk.injEq] at h
      obtain ⟨rfl, rfl⟩ := h
      exact ⟨grows_refl p s, fun hD => hD⟩
    · exact ivoLoop_grows_disj (is_valid_opcode_fuel fuel) p
        (is_valid_opcode_fuel_grows_disj fuel) _ s b s1
        (fun d hd => mem_disqualifying hd) h3 h2 h

/-- Whatever the loop returns, it has memoized `position` on the matching
side. -/
theorem ivoLoop_decided (f : Int → CodeStream → Option (Bool × CodeStream)) (p : Int) :
    ∀ (ds : List Int) (s : CodeStream) (b : Bool) (s1 : CodeStream),
      ivoLoop f p ds s = some (b, s1) →
      (b = true ∧ p ∈ s1.valid_positions) ∨ (b = false ∧ p ∈ s1.invalid_positions)
  | [], s, b, s1, h => by
    simp only [ivoLoop, Option.some.injEq, Prod.mk.injEq] at h
    obtain ⟨rfl, rfl⟩ := h
    exact Or.inl ⟨rfl, List.mem_insert_self _ _⟩
  | d :: rest, s, b, s1, h => by
    rcases hfd : f d s with _ | ⟨b1, smid⟩
    · simp only [ivoLoop, hfd] at h
      cases h
    · cases b1
      · simp only [ivoLoop, hfd] at h
        exact ivoLoop_decided f p rest smid b s1 h
      · simp only [ivoLoop, hfd, Option.some.injEq, Prod.mk.injEq] at h
        obtain ⟨rfl, rfl⟩ := h
        exact Or.inr ⟨rfl, List.mem_insert_self _ _⟩

/-- A successful `is_valid_opcode` run either hit the out-of-range guard
(answer `false`, state untouched) or ended with `position` memoized on the
side matching its answer. -/
theorem is_valid_opcode_fuel_decided (fuel : Nat) (p : Int) (s : CodeStream)
    (b : Bool) (s1 : CodeStream)
    (h : is_valid_opcode_fuel fuel p s = some (b, s1)) :
    ((s.code.length : Int) ≤ p ∧ b = false ∧ s1 = s) ∨
    (p < (s.code.length : Int) ∧
      ((b = true ∧ p ∈ s1.valid_positions) ∨ (b = false ∧ p ∈ s1.invalid_positions))) := by
  cases fuel
  · cases h
  · simp only [is_valid_opcode_fuel] at h
    split_ifs at h with h1 h2 h3
    · simp only [Option.some.injEq, Prod.mk.injEq] at h
      obtain ⟨rfl, rfl⟩ := h
      exact Or.inl ⟨h1, rfl, rfl⟩
    · simp only [Option.some.injEq, Prod.mk.injEq] at h
      obtain ⟨rfl, rfl⟩ := h
      exact Or.inr ⟨by omega, Or.inr ⟨rfl, h2⟩⟩
    · simp only [Option.some.injEq, Prod.mk.injEq] at h
      obtain ⟨rfl, rfl⟩ := h
      exact Or.inr ⟨by omega, Or.inl ⟨rfl, h3⟩⟩
    · exact Or.inr ⟨by omega, ivoLoop_decided _ p _ s b s1 h⟩

/-- Once `position` is memoized on one side (and the sets are disjoint and
`position` is in range), any later run answers from the memo, leaving the
state untouched. -/
theorem is_valid_opcode_fuel_stable (fuel : Nat) (p : Int) (s : CodeStream) (b : Bool)
    (hlen : p < (s.code.length : Int)) (hD : Disj s)
    (hmem : (b = true ∧ p ∈ s.valid_positions) ∨ (b = false ∧ p ∈ s.invalid_positions)) :
    is_valid_opcode_fuel (fuel + 1) p s = some (b, s) := by
  simp only [is_valid_opcode_fuel]
  rcases hmem with ⟨rfl, hmem⟩ | ⟨rfl, hmem⟩
  · rw [if_neg (by omega), if_neg (hD p hmem), if_pos hmem]
  · rw [if_neg (by omega), if_pos hmem]

/-- If the recursive call always succeeds, so does the loop. -/
theorem ivoLoop_isSome (f : Int → CodeStream → Option (Bool × CodeStream)) (p : Int) :
    ∀ (ds : List Int) (s : CodeStream),
      (∀ d ∈ ds, ∀ t, (f d t).isSome = true) →
      (ivoLoop f p ds s).isSome = true
  | [], s, _ => by simp [ivoLoop]
  | d :: rest, s, hf => by
    rcases hfd : f d s with _ | ⟨b1, smid⟩
    · have hs := hf d (by simp) s
      rw [hfd] at hs
      cases hs
    · cases b1
      · simp only [ivoLoop, hfd]
        exact ivoLoop_isSome f p rest smid (fun x hx => hf x (List.mem_cons_of_mem d hx))
      · simp [ivoLoop, hfd]

/-- Fuel sufficiency: `position.toNat + 1` stack frames always suffice —
each nested classification is at a strictly smaller nonnegative position,
so the nesting depth is bounded by `position + 1` (not by the 32-byte
lookback window). -/
theorem is_valid_opcode_fuel_isSome :
    ∀ (fuel : Nat) (p : Int) (s : CodeStream), p.toNat < fuel →
      (is_valid_opcode_fuel fuel p s).isSome = true
  | 0, _, _, h => absurd h (by omega)
  | fuel + 1, p, s, h => by
    simp only [is_valid_opcode_fuel]
    split_ifs with h1 h2 h3
    · rfl
    · rfl
    · rfl
    · refine ivoLoop_isSome _ p _ s (fun d hd t => ?_)
      have hb := mem_disqualifying hd
      exact is_valid_opcode_fuel_isSome fuel d t (by omega)

/-- The total `is_valid_opcode` agrees with the fuelled run at the
always-sufficient fuel `position.toNat + 1`. -/
theorem is_valid_opcode_eq_fuel (s : CodeStream) (p : Int) :
    is_valid_opcode_fuel (p.toNat + 1) p s = some (s.is_valid_opcode p) := by
  have h := is_valid_opcode_fuel_isSome (p.toNat + 1) p s (by omega)
  rcases hr : is_valid_opcode_fuel (p.toNat + 1) p s with _ | r
  · rw [hr] at h
    cases h
  · unfold CodeStream.is_valid_opcode
    rw [hr]
    rfl

/-- The state after `_next` is the state after `read(1)` whichever branch
is taken. -/
theorem _next_snd (s : CodeStream) : s._next.2 = (s.read 1).2 := by
  unfold CodeStream._next CodeStream.read
  rcases h : (s.code.drop s.pos).take 1 with _ | ⟨b, rest⟩ <;> simp [CodeStream.read, h]

/-- Every single operation leaves the buffer unchanged, only grows the memo
sets, preserves their disjointness, and keeps the cursor within bounds. -/
theorem applyOp_preserves (op : Op) (s : CodeStream) :
    (applyOp op s).code = s.code ∧
    (∀ x : Int, x ∈ s.valid_positions → x ∈ (applyOp op s).valid_positions) ∧
    (∀ x : Int, x ∈ s.invalid_positions → x ∈ (applyOp op s).invalid_positions) ∧
    (Disj s → Disj (applyOp op s)) ∧
    (s.pos ≤ s.code.length → (applyOp op s).pos ≤ s.code.length) := by
  cases op with
  | readOp n =>
    refine ⟨rfl, fun x hx => hx, fun x hx => hx, fun hD => hD, fun h => ?_⟩
    simp only [applyOp, CodeStream.read, List.length_take, List.length_drop]
    omega
  | nextOp =>
    simp only [applyOp, _next_snd]
    refine ⟨rfl, fun x hx => hx, fun x hx => hx, fun hD => hD, fun h => ?_⟩
    simp only [CodeStream.read, List.length_take, List.length_drop]
    omega
  | peekOp =>
    simp only [applyOp, CodeStream.peek, _next_snd]
    refine ⟨rfl, fun x hx => hx, fun x hx => hx, fun hD => hD, fun h => ?_⟩
    simp only [CodeStream.read]
    omega
  | pcSetOp v =>
    simp only [applyOp, CodeStream.pc_set]
    split_ifs with h1
    · exact ⟨rfl, fun x hx => hx, fun x hx => hx, fun hD => hD, fun h => h⟩
    · refine ⟨rfl, fun x hx => hx, fun x hx => hx, fun hD => hD, fun h => ?_⟩
      show (min v (s.code.length : Int)).toNat ≤ s.code.length
      omega
  | classifyOp q =>
    have hfe := is_valid_opcode_eq_fuel s q
    obtain ⟨hg, hD⟩ := is_valid_opcode_fuel_grows_disj (q.toNat + 1) q s
      (s.is_valid_opcode q).1 (s.is_valid_opcode q).2 hfe
    exact ⟨hg.1, hg.2.2.1, hg.2.2.2.1, hD, fun h => by
      show (s.is_valid_opcode q).2.pos ≤ s.code.length
      rw [hg.2.1]; exact h⟩

/-- Sequence version of `applyOp_preserves`. -/
theorem applyOps_preserves (ops : List Op) :
    ∀ s : CodeStream,
      (applyOps ops s).code = s.code ∧
      (∀ x : Int, x ∈ s.valid_positions → x ∈ (applyOps ops s).valid_positions) ∧
      (∀ x : Int, x ∈ s.invalid_positions → x ∈ (applyOps ops s).invalid_positions) ∧
      (Disj s → Disj (applyOps ops s)) ∧
      (s.pos ≤ s.code.length → (applyOps ops s).pos ≤ s.code.length) := by
  induction ops with
  | nil => exact fun s => ⟨rfl, fun x hx => hx, fun x hx => hx, fun hD => hD, fun h => h⟩
  | cons op ops ih =>
    intro s
    obtain ⟨hc1, hv1, hi1, hD1, hp1⟩ := applyOp_preserves op s
    obtain ⟨hc2, hv2, hi2, hD2, hp2⟩ := ih (applyOp op s)
    have hstep : applyOps (op :: ops) s = applyOps ops (applyOp op s) := rfl
    rw [hstep]
    refine ⟨hc2.trans hc1, fun x hx => hv2 x (hv1 x hx), fun x hx => hi2 x (hi1 x hx),
      fun hD => hD2 (hD1 hD), fun h => ?_⟩
    rw [← hc1]
    exact hp2 (by rw [hc1]; exact hp1 h)

/-- A fresh stream has disjoint (empty) memo sets. -/
theorem disj_init (code : List Nat) : Disj (CodeStream.init code) :=
  fun x hx => absurd hx (List.not_mem_nil x)

/-- The lookback window of a nonpositive position is empty. -/
theorem disq_nil_of_nonpos {s : CodeStream} {p : Int} (hp : p ≤ 0) :
    s._potentially_disqualifying_opcode_positions p = [] := by
  unfold CodeStream._potentially_disqualifying_opcode_positions
  have h0 : (min 32 p).toNat = 0 := by omega
  simp [h0]

/-- Out-of-range guard: a position at or past the end is reported invalid
with the whole state untouched. -/
theorem is_valid_opcode_out_of_range {s : CodeStream} {p : Int}
    (h : (s.code.length : Int) ≤ p) : s.is_valid_opcode p = (false, s) := by
  unfold CodeStream.is_valid_opcode
  simp only [is_valid_opcode_fuel]
  rw [if_pos h]
  rfl

/-- Setting `pc` to a nonnegative target succeeds and clamps to
`min(target, length)`. -/
theorem pc_set_some {s : CodeStream} {v : Int} (h : 0 ≤ v) :
    s.pc_set v = some { s with pos := (min v (s.code.length : Int)).toNat } := by
  unfold CodeStream.pc_set
  rw [if_neg (by omega)]

/-- C1: classifying the buffer `[PUSH2, PUSH1, 0x00, 0x00]` with
`is_valid_opcode` yields valid, invalid, invalid, valid at positions
0, 1, 2, 3 — both when the four queries thread the memo through and when
each position is classified on a fresh stream; in particular position 1 is
data even though its byte value equals the PUSH1 opcode. -/
theorem claim_C1_push_data_scenario :
    (let s0 := CodeStream.init [PUSH2, PUSH1, 0x00, 0x00]
     let r0 := s0.is_valid_opcode 0
     let r1 := r0.2.is_valid_opcode 1
     let r2 := r1.2.is_valid_opcode 2
     let r3 := r2.2.is_valid_opcode 3
     r0.1 = true ∧ r1.1 = false ∧ r2.1 = false ∧ r3.1 = true) ∧
    ((CodeStream.init [PUSH2, PUSH1, 0x00, 0x00]).is_valid_opcode 0).1 = true ∧
    ((CodeStream.init [PUSH2, PUSH1, 0x00, 0x00]).is_valid_opcode 1).1 = false ∧
    ((CodeStream.init [PUSH2, PUSH1, 0x00, 0x00]).is_valid_opcode 2).1 = false ∧
    ((CodeStream.init [PUSH2, PUSH1, 0x00, 0x00]).is_valid_opcode 3).1 = true := by
  decide

/-- C2: a negative position that is not memoized yet is classified valid —
the `position >= length` guard does not catch it (even on an empty buffer)
and its backward-scan window is empty, so it is added to
`valid_positions` and `true` is returned. -/
theorem claim_C2_negative_position_valid (code : List Nat) (pos : Nat)
    (inv val : List Int) (p : Int)
    (hp : p < 0) (hinv : p ∉ inv) (hval : p ∉ val) :
    (CodeStream.mk code pos inv val).is_valid_opcode p =
      (true, CodeStream.mk code pos inv (val.insert p)) ∧
    p ∈ ((CodeStream.mk code pos inv val).is_valid_opcode p).2.valid_positions := by
  have hmain : (CodeStream.mk code pos inv val).is_valid_opcode p =
      (true, CodeStream.mk code pos inv (val.insert p)) := by
    unfold CodeStream.is_valid_opcode
    have hfuel : p.toNat = 0 := by omega
    rw [hfuel]
    simp only [is_valid_opcode_fuel]
    rw [if_neg (show ¬((code.length : Int) ≤ p) by omega), if_neg hinv, if_neg hval,
      disq_nil_of_nonpos (le_of_lt hp)]
    rfl
  refine ⟨hmain, ?_⟩
  rw [hmain]
  exact List.mem_insert_self p val

/-- Witness for C2 at `p = -1` on an empty fresh stream. -/
theorem claim_C2_witness :
    ((-1 : Int) < 0 ∧ (-1 : Int) ∉ ([] : List Int) ∧ (-1 : Int) ∉ ([] : List Int)) ∧
    ((CodeStream.mk [] 0 [] []).is_valid_opcode (-1) =
        (true, CodeStream.mk [] 0 [] (([] : List Int).insert (-1))) ∧
      (-1 : Int) ∈ ((CodeStream.mk [] 0 [] []).is_valid_opcode (-1)).2.valid_positions) :=
  ⟨by decide, claim_C2_negative_position_valid [] 0 [] [] (-1) (by decide) (by decide) (by decide)⟩

/-- C4: a position at or past the buffer length is classified invalid with
the state — in particular both memo sets — completely untouched, and no
exception is possible (the classifier is a total function here). -/
theorem claim_C4_out_of_range_false (s : CodeStream) (p : Int)
    (h : (s.code.length : Int) ≤ p) : s.is_valid_opcode p = (false, s) :=
  is_valid_opcode_out_of_range h

/-- Witness for C4 at `p = 5` on a 3-byte buffer. -/
theorem claim_C4_witness :
    (((CodeStream.init [1, 2, 3]).code.length : Int) ≤ 5 ∧
    (CodeStream.init [1, 2, 3]).is_valid_opcode 5 = (false, CodeStream.init [1, 2, 3])) :=
  ⟨by decide, claim_C4_out_of_range_false (CodeStream.init [1, 2, 3]) 5 (by decide)⟩

/-- C8: with the cursor at the buffer length, `next()` returns the STOP
terminator and the whole state — in particular the cursor — is unchanged,
so any number of repeated calls keep returning STOP with the position still
equal to the length. -/
theorem claim_C8_next_at_end_stop (s : CodeStream) (h : s.pos = s.code.length) :
    s._next = (STOP, s) := by
  have hd : s.code.drop s.pos = [] := by
    rw [h]
    exact List.drop_length _
  simp [CodeStream._next, CodeStream.read, hd]

/-- Witness for C8 on a 1-byte buffer with the cursor at the end. -/
theorem claim_C8_witness :
    ((CodeStream.mk [7] 1 [] []).pos = (CodeStream.mk [7] 1 [] []).code.length ∧
    (CodeStream.mk [7] 1 [] [])._next = (STOP, CodeStream.mk [7] 1 [] [])) :=
  ⟨by decide, claim_C8_next_at_end_stop (CodeStream.mk [7] 1 [] []) (by decide)⟩

/-- C9: `peek()` returns exactly what `next()` would return and leaves the
entire state (cursor included) unchanged; hence any number of consecutive
peeks yield the same result on the same state. -/
theorem claim_C9_peek_pure (s : CodeStream) (h : s.pos ≤ s.code.length) :
    s.peek = (s._next.1, s) := by
  have h2 : s.peek.2 = s := by
    show { s._next.2 with pos := min s.pos s._next.2.code.length } = s
    rw [_next_snd]
    show { s with pos := min s.pos s.code.length } = s
    rw [Nat.min_eq_left h]
  have h1 : s.peek.1 = s._next.1 := rfl
  rw [Prod.ext_iff]
  exact ⟨h1, h2⟩

/-- Witness for C9 on a fresh 2-byte stream. -/
theorem claim_C9_witness :
    ((CodeStream.init [5, 6]).pos ≤ (CodeStream.init [5, 6]).code.length ∧
    (CodeStream.init [5, 6]).peek = ((CodeStream.init [5, 6])._next.1, CodeStream.init [5, 6])) :=
  ⟨by decide, claim_C9_peek_pure (CodeStream.init [5, 6]) (by decide)⟩

/-- A successful `pc` assignment does not change the buffer. -/
theorem pc_set_code {s s1 : CodeStream} {v : Int} (h : s.pc_set v = some s1) :
    s1.code = s.code := by
  unfold CodeStream.pc_set at h
  dsimp only at h
  split_ifs at h
  all_goals cases h
  all_goals rfl

/-- C3 counterexample: on 40 consecutive `PUSH1` bytes with a fresh memo,
classifying position 39 does not bottom out within 33 available stack
frames (the top-level call plus 32 nested levels), refuting the claimed
32-level bound — while 40 frames do suffice, so the computation itself
terminates. -/
theorem claim_C3_counterexample :
    is_valid_opcode_fuel 33 39 (CodeStream.init (List.replicate 40 PUSH1)) = none ∧
    (is_valid_opcode_fuel 40 39 (CodeStream.init (List.replicate 40 PUSH1))).isSome = true := by
  decide

/-- C3 amended: the chain of recursive classifications always bottoms out,
but its depth is bounded by `position + 1` stack frames (each nested
classification is at a strictly smaller nonnegative position), not by the
32-byte lookback window. -/
theorem claim_C3_depth_bounded_by_position (fuel : Nat) (p : Int) (s : CodeStream)
    (h : p.toNat < fuel) : (is_valid_opcode_fuel fuel p s).isSome = true :=
  is_valid_opcode_fuel_isSome fuel p s h

/-- Witness for amended C3: 34 frames suffice for position 33 on 34
consecutive `PUSH1` bytes with a fresh memo. -/
theorem claim_C3_witness :
    ((33 : Int).toNat < 34 ∧
    (is_valid_opcode_fuel 34 33 (CodeStream.init (List.replicate 34 PUSH1))).isSome = true) :=
  ⟨by decide,
    claim_C3_depth_bounded_by_position 34 33 (CodeStream.init (List.replicate 34 PUSH1))
      (by decide)⟩

/-- C5: after any sequence of reads, iterator steps, peeks, seeks and
classifications on a fresh stream, no position is in both memo sets. -/
theorem claim_C5_memo_disjoint (code : List Nat) (ops : List Op) (x : Int) :
    ¬(x ∈ (applyOps ops (CodeStream.init code)).valid_positions ∧
      x ∈ (applyOps ops (CodeStream.init code)).invalid_positions) := by
  rintro ⟨hv, hi⟩
  exact (applyOps_preserves ops (CodeStream.init code)).2.2.2.1 (disj_init code) x hv hi

/-- C6: once `is_valid_opcode(p)` has been computed on a stream reachable
from a fresh one, recomputing it after any further sequence of operations
(cursor moves, reads, classifications of other positions) returns the
identical boolean: the memo entry is never reclassified or removed. -/
theorem claim_C6_memo_idempotent (code : List Nat) (ops1 ops2 : List Op) (p : Int) :
    ((applyOps ops2 ((applyOps ops1 (CodeStream.init code)).is_valid_opcode p).2).is_valid_opcode p).1
      = ((applyOps ops1 (CodeStream.init code)).is_valid_opcode p).1 := by
  set s1 := applyOps ops1 (CodeStream.init code) with hs1
  have hD1 : Disj s1 := (applyOps_preserves ops1 (CodeStream.init code)).2.2.2.1 (disj_init code)
  have hfe := is_valid_opcode_eq_fuel s1 p
  obtain ⟨hg, hDk⟩ := is_valid_opcode_fuel_grows_disj (p.toNat + 1) p s1
    (s1.is_valid_opcode p).1 (s1.is_valid_opcode p).2 hfe
  have hdec := is_valid_opcode_fuel_decided (p.toNat + 1) p s1
    (s1.is_valid_opcode p).1 (s1.is_valid_opcode p).2 hfe
  set s2 := (s1.is_valid_opcode p).2 with hs2
  set s3 := applyOps ops2 s2 with hs3
  obtain ⟨hc3, hv3, hi3, hD3p, _⟩ := applyOps_preserves ops2 s2
  have hD3 : Disj s3 := hD3p (hDk hD1)
  have hcode : s3.code = s1.code := by rw [hc3, hg.1]
  rcases hdec with ⟨hlen, hb, _⟩ | ⟨hlen, hmem⟩
  · have hout : s3.is_valid_opcode p = (false, s3) :=
      is_valid_opcode_out_of_range (by rw [hcode]; exact hlen)
    rw [hout, hb]
  · have hlen3 : p < (s3.code.length : Int) := by rw [hcode]; exact hlen
    have hmem3 : ((s1.is_valid_opcode p).1 = true ∧ p ∈ s3.valid_positions) ∨
        ((s1.is_valid_opcode p).1 = false ∧ p ∈ s3.invalid_positions) := by
      rcases hmem with ⟨hb, hm⟩ | ⟨hb, hm⟩
      · exact Or.inl ⟨hb, hv3 p hm⟩
      · exact Or.inr ⟨hb, hi3 p hm⟩
    have hst := is_valid_opcode_fuel_stable p.toNat p s3 (s1.is_valid_opcode p).1 hlen3 hD3 hmem3
    show ((is_valid_opcode_fuel (p.toNat + 1) p s3).getD (false, s3)).1 = _
    rw [hst]
    rfl

/-- C7: the `seek` guard restores the cursor position captured at entry on
every exit path — normal completion or an exception unwinding out of the
body (`Bool` flag `false`) — for any body that does not change the buffer
length, including bodies that move the cursor arbitrarily or are themselves
nested `seek` guards; a negative target makes the entry assignment raise
before the body runs, also leaving the cursor at its entry value. -/
theorem claim_C7_seek_guard_restores (s : CodeStream) (pc : Int)
    (body : CodeStream → CodeStream × Bool)
    (hbody : ∀ t : CodeStream, (body t).1.code.length = t.code.length)
    (hpos : s.pos ≤ s.code.length) :
    (s.seek pc body).1.pos = s.pos := by
  unfold CodeStream.seek
  rcases hset : s.pc_set pc with _ | s1
  · rfl
  · have hsome2 : (body s1).1.pc_set (s.pos : Int) =
        some { (body s1).1 with
          pos := (min (s.pos : Int) (((body s1).1.code.length : Nat) : Int)).toNat } :=
      pc_set_some (by omega)
    dsimp only
    rw [hsome2]
    show (min (s.pos : Int) (((body s1).1.code.length : Nat) : Int)).toNat = s.pos
    have hc := hbody s1
    have hc2 : s1.code = s.code := pc_set_code hset
    rw [hc, hc2]
    omega

/-- Witness for C7: probe position 2 of a 3-byte stream with a body that
moves the cursor to the end and then raises. -/
theorem claim_C7_witness :
    ((∀ t : CodeStream, ((fun t : CodeStream => ({ t with pos := 3 }, false)) t).1.code.length
        = t.code.length) ∧
      (CodeStream.init [10, 11, 12]).pos ≤ (CodeStream.init [10, 11, 12]).code.length ∧
    ((CodeStream.init [10, 11, 12]).seek 2
        (fun t : CodeStream => ({ t with pos := 3 }, false))).1.pos
      = (CodeStream.init [10, 11, 12]).pos) :=
  ⟨fun _ => rfl, by decide,
    claim_C7_seek_guard_restores (CodeStream.init [10, 11, 12]) 2
      (fun t : CodeStream => ({ t with pos := 3 }, false)) (fun _ => rfl) (by decide)⟩

/-- C10 counterexample: assigning the negative target `-1` does not clamp
and return normally — `io.BytesIO.seek(min(-1, length))` raises
`ValueError` (modelled as `none`). -/
theorem claim_C10_counterexample : (CodeStream.init [0, 0]).pc_set (-1) = none := by
  decide

/-- C10 amended: for every nonnegative target `t`, assigning the cursor
position on any stream reachable from a fresh one clamps to
`min(t, length)` without raising, and the resulting offset — like the
cursor after any sequence of operations — lies within `[0, length]`; a
negative `t` instead raises `ValueError`. -/
theorem claim_C10_clamp_nonneg (code : List Nat) (ops : List Op) (t : Int) (h : 0 ≤ t) :
    (applyOps ops (CodeStream.init code)).pc_set t =
      some { applyOps ops (CodeStream.init code) with
        pos := (min t ((applyOps ops (CodeStream.init code)).code.length : Int)).toNat } ∧
    (min t ((applyOps ops (CodeStream.init code)).code.length : Int)).toNat ≤
      (applyOps ops (CodeStream.init code)).code.length ∧
    (applyOps ops (CodeStream.init code)).pos ≤
      (applyOps ops (CodeStream.init code)).code.length := by
  refine ⟨pc_set_some h, by omega, ?_⟩
  obtain ⟨hc, _, _, _, hp⟩ := applyOps_preserves ops (CodeStream.init code)
  rw [hc]
  exact hp (Nat.zero_le _)

/-- Witness for amended C10: clamp target 5 on a 2-byte fresh stream. -/
theorem claim_C10_witness :
    ((0 : Int) ≤ 5 ∧
    ((applyOps [] (CodeStream.init [1, 2])).pc_set 5 =
        some { applyOps [] (CodeStream.init [1, 2]) with
          pos := (min 5 ((applyOps [] (CodeStream.init [1, 2])).code.length : Int)).toNat } ∧
      (min (5 : Int) ((applyOps [] (CodeStream.init [1, 2])).code.length : Int)).toNat ≤
        (applyOps [] (CodeStream.init [1, 2])).code.length ∧
      (applyOps [] (CodeStream.init [1, 2])).pos ≤
        (applyOps [] (CodeStream.init [1, 2])).code.length)) :=
  ⟨by decide, claim_C10_clamp_nonneg [1, 2] [] 5 (by decide)⟩

end CodeStreamModel
